import Mathlib

/-!
Verification of the practicelog analytics engine (`src/app.py`).

The engine consists of four pure functions over session snapshots:
`streak_info` (consecutive-day practice streak), `aggregate_time_by_topic`
and `aggregate_time_by_tag` (proportional time distribution) and the
windowed session selection used by `weekly_sessions` / `analytics`.

Embedding conventions:
* Calendar dates are modelled as `Int` (a day number); `(d1 - d2).days`
  on Python `date` objects is exact integer subtraction.
* Timestamps (`started_at`) are modelled as `Int` minutes;
  `timedelta(days = n)` is `n * 1440` minutes.
* Python `float` arithmetic is modelled as exact rational arithmetic (`ℚ`).
* A Python `dict`/`defaultdict(float)` is modelled as an association list
  in insertion order (`TotalsMap`); `totals[k] += v` is `addTo`, and two
  dicts compare equal exactly when `lookupTotal` agrees on every key.
* Database rows reached through the ORM are flattened to the fields the
  engine reads: a session carries `duration_min` and its list of topics,
  a topic carries its `name` and the list of its tag names.
-/

namespace PracticeLog

/-- A topic attached to a session, with the names of its tags.
Corresponds to `session_topic.topic` in `src/app.py`: the aggregators read
`session_topic.topic.name` and `topic_tag.tag.name` for each
`topic_tag` in `topic.tags`. -/
structure Topic where
  name : String
  tags : List String
deriving DecidableEq, Repr

/-- A practice session as read by the aggregators (`src/app.py` lines
176-205): `session.duration_min` and `session.topics`. -/
structure PracticeSession where
  duration_min : Int
  topics : List Topic
deriving DecidableEq, Repr

/-- A session as read by the windowed selection (`src/app.py` lines
208-216 and 488-496): only `started_at` matters, in minutes. -/
structure TimedSession where
  started_at : Int
deriving DecidableEq, Repr

/-- Python `dict[str, float]` modelled as an association list in insertion
order with exact rationals for floats. `addTo` keeps keys unique, so the
list of pairs is exactly the dict's key/value pairs. -/
abbrev TotalsMap := List (String × ℚ)

/-- `totals[key] += amount` on a `defaultdict(float)`: update the existing
entry in place, or append a fresh entry at the end. -/
def addTo : TotalsMap → String → ℚ → TotalsMap
  | [], key, amount => [(key, amount)]
  | (k, v) :: rest, key, amount =>
    if k = key then (k, v + amount) :: rest
    else (k, v) :: addTo rest key amount

/-- Dict lookup: `totals[key]` if present. Two Python dicts are `==` exactly
when this function agrees on every key. -/
def lookupTotal : TotalsMap → String → Option ℚ
  | [], _ => none
  | (k, v) :: rest, key => if k = key then some v else lookupTotal rest key

/-- `sum(totals.values())`. -/
def sumValues (m : TotalsMap) : ℚ :=
  (m.map Prod.snd).sum

/-- Loop body of `aggregate_time_by_topic` (`src/app.py` lines 180-186):
skip sessions with no topics, otherwise add
`share = duration_min / topic_count` to each topic's running total. -/
def topicSessionStep (totals : TotalsMap) (session : PracticeSession) : TotalsMap :=
  let topic_count := session.topics.length
  if topic_count = 0 then totals
  else
    let share : ℚ := (session.duration_min : ℚ) / (topic_count : ℚ)
    session.topics.foldl (fun acc topic => addTo acc topic.name share) totals

/-- `aggregate_time_by_topic` (`src/app.py` lines 176-187). -/
def aggregate_time_by_topic (sessions : List PracticeSession) : TotalsMap :=
  sessions.foldl topicSessionStep []

/-- Loop body of `aggregate_time_by_tag` (`src/app.py` lines 194-204):
skip sessions with no topics; for each topic of the session, skip topics
with no tags and add the full per-topic `share` to every tag of the topic. -/
def tagSessionStep (totals : TotalsMap) (session : PracticeSession) : TotalsMap :=
  let topic_count := session.topics.length
  if topic_count = 0 then totals
  else
    let share : ℚ := (session.duration_min : ℚ) / (topic_count : ℚ)
    session.topics.foldl
      (fun acc topic =>
        if topic.tags = [] then acc
        else topic.tags.foldl (fun acc2 tagName => addTo acc2 tagName share) acc)
      totals

/-- `aggregate_time_by_tag` (`src/app.py` lines 190-205). -/
def aggregate_time_by_tag (sessions : List PracticeSession) : TotalsMap :=
  sessions.foldl tagSessionStep []

/-- Insert `x` into a list that is sorted descending by `key`. -/
def insertDescBy {α : Type} (key : α → Int) (x : α) : List α → List α
  | [] => [x]
  | y :: rest =>
    if key y ≤ key x then x :: y :: rest else y :: insertDescBy key x rest

/-- Sort descending by `key`; models the database
`order_by(Session.started_at.desc())`. -/
def sortDescBy {α : Type} (key : α → Int) (l : List α) : List α :=
  l.foldr (insertDescBy key) []

/-- Main loop of `streak_info` after the first session has been counted
(`src/app.py` lines 163-171): walking the remaining dates (descending),
`diff = previous_day - day`; `diff == 0` skips a duplicate day, `diff == 1`
extends the streak by one day (moving `streak_start` back), and any other
gap breaks the loop, returning the totals accumulated so far. -/
def streakLoop (previous_day : Int) (streak : Nat) (streak_start streak_end : Int) :
    List Int → Nat × Option Int × Option Int
  | [] => (streak, some streak_start, some streak_end)
  | day :: rest =>
    let diff := previous_day - day
    if diff = 0 then streakLoop previous_day streak streak_start streak_end rest
    else if diff = 1 then streakLoop day (streak + 1) day streak_end rest
    else (streak, some streak_start, some streak_end)

/-- Body of `streak_info` (`src/app.py` lines 136-173) over the session
dates already sorted descending. With no sessions the result is
`(0, none, none)`. Otherwise the first date is compared with `today`
(lines 149-161: the nested `if (today - day).days > 0` /
`if today_offset > 0` / `if today_offset > 1: break` collapses to a break
when `today - day > 1`, since the middle test is always true inside the
outer one); a break before anything is counted returns `(0, none, none)`,
otherwise the first day is counted (`streak = 1`, both endpoints set) and
the loop continues on the remaining dates. -/
def computeStreak (today : Int) : List Int → Nat × Option Int × Option Int
  | [] => (0, none, none)
  | day :: rest =>
    if 1 < today - day then (0, none, none)
    else streakLoop day 1 day day rest

/-- `streak_info` (`src/app.py` lines 128-173): the database supplies the
session start dates sorted descending (`order_by(Session.started_at.desc())`,
each mapped through `.date()`), then the streak is computed. -/
def streak_info (today : Int) (sessionDates : List Int) :
    Nat × Option Int × Option Int :=
  computeStreak today (sortDescBy id sessionDates)

/-- Minutes in a day: `timedelta(days = 1)`. -/
def minutesPerDay : Int := 1440

/-- Windowed session selection (`src/app.py` lines 488-496, and lines
208-216 with `days = 7`): keep sessions with
`started_at >= now - timedelta(days = days)`, ordered descending by
`started_at`. -/
def selectWindow (now : Int) (days : Int) (sessions : List TimedSession) :
    List TimedSession :=
  let since := now - days * minutesPerDay
  sortDescBy (fun s => s.started_at)
    (sessions.filter (fun s => decide (since ≤ s.started_at)))

/-- `weekly_sessions` (`src/app.py` lines 208-216). -/
def weekly_sessions (now : Int) (sessions : List TimedSession) : List TimedSession :=
  selectWindow now 7 sessions

/-- A session touches topic key `k` when one of its topics is named `k`;
exactly then does the topic aggregator create or update the entry for `k`. -/
def touchesTopic (s : PracticeSession) (k : String) : Prop :=
  ∃ tp ∈ s.topics, tp.name = k

/-- Total amount the topic aggregator adds under key `k` for one session:
the per-topic share `duration / topicCount`, once per topic named `k`. -/
def contribTopic (s : PracticeSession) (k : String) : ℚ :=
  (s.topics.countP (fun tp => decide (tp.name = k)) : ℚ) *
    ((s.duration_min : ℚ) / (s.topics.length : ℚ))

/-- A session touches tag key `k` when one of its topics carries tag `k`. -/
def touchesTag (s : PracticeSession) (k : String) : Prop :=
  ∃ tp ∈ s.topics, k ∈ tp.tags

/-- Total amount the tag aggregator adds under key `k` for one session:
the full per-topic share once per occurrence of tag `k` on each topic. -/
def contribTag (s : PracticeSession) (k : String) : ℚ :=
  (s.topics.map (fun tp => ((tp.tags.countP (fun t => decide (t = k)) : Nat) : ℚ))).sum *
    ((s.duration_min : ℚ) / (s.topics.length : ℚ))

instance (s : PracticeSession) (k : String) : Decidable (touchesTopic s k) :=
  inferInstanceAs (Decidable (∃ tp ∈ s.topics, tp.name = k))

instance (s : PracticeSession) (k : String) : Decidable (touchesTag s k) :=
  inferInstanceAs (Decidable (∃ tp ∈ s.topics, k ∈ tp.tags))

/-- Concrete session used to instantiate universally quantified theorems. -/
def sampleA : PracticeSession := ⟨10, [⟨"x", ["a"]⟩]⟩

/-- Concrete session used to instantiate universally quantified theorems. -/
def sampleB : PracticeSession := ⟨20, [⟨"y", ["b"]⟩]⟩

/-! ### Association-list dictionary lemmas -/

theorem lookupTotal_addTo (m : TotalsMap) (n k : String) (a : ℚ) :
    lookupTotal (addTo m n a) k =
      if n = k then some ((lookupTotal m k).getD 0 + a) else lookupTotal m k := by
  induction m with
  | nil =>
    by_cases h : n = k <;> simp [addTo, lookupTotal, h]
  | cons p rest ih =>
    obtain ⟨k0, v⟩ := p
    by_cases h1 : k0 = n
    · subst h1
      by_cases h2 : k0 = k
      · subst h2
        simp [addTo, lookupTotal]
      · simp [addTo, lookupTotal, h2]
    · by_cases h2 : k0 = k
      · subst h2
        have hnk : ¬ n = k0 := fun h => h1 h.symm
        simp [addTo, lookupTotal, h1, hnk]
      · simp [addTo, lookupTotal, h1, h2, ih]

theorem sumValues_addTo (m : TotalsMap) (n : String) (a : ℚ) :
    sumValues (addTo m n a) = sumValues m + a := by
  induction m with
  | nil => simp [addTo, sumValues]
  | cons p rest ih =>
    obtain ⟨k0, v⟩ := p
    by_cases h : k0 = n
    · simp [addTo, h, sumValues]
      ring
    · simp only [addTo, if_neg h]
      simp [sumValues] at ih ⊢
      rw [ih]
      ring

theorem sumValues_foldAddBy {α : Type} (f : α → String) (share : ℚ) :
    ∀ (xs : List α) (m : TotalsMap),
      sumValues (xs.foldl (fun acc x => addTo acc (f x) share) m) =
        sumValues m + (xs.length : ℚ) * share := by
  intro xs
  induction xs with
  | nil => intro m; simp
  | cons x rest ih =>
    intro m
    simp only [List.foldl_cons, List.length_cons]
    rw [ih, sumValues_addTo]
    push_cast
    ring

theorem lookupTotal_foldAdd (share : ℚ) :
    ∀ (names : List String) (m : TotalsMap) (k : String),
      lookupTotal (names.foldl (fun acc n => addTo acc n share) m) k =
        if k ∈ names then
          some ((lookupTotal m k).getD 0 +
            (names.countP (fun n => decide (n = k)) : ℚ) * share)
        else lookupTotal m k := by
  intro names
  induction names with
  | nil => intro m k; simp
  | cons n rest ih =>
    intro m k
    simp only [List.foldl_cons]
    rw [ih, lookupTotal_addTo]
    by_cases hnk : n = k
    · subst hnk
      by_cases hmem : n ∈ rest
      · rw [if_pos hmem, if_pos (List.mem_cons_self n rest), if_pos rfl]
        have : (List.countP (fun x => decide (x = n)) (n :: rest) : ℚ) =
            (List.countP (fun x => decide (x = n)) rest : ℚ) + 1 := by
          rw [List.countP_cons]
          simp
        rw [this]
        simp only [Option.getD_some]
        ring_nf
      · rw [if_neg hmem, if_pos rfl, if_pos (List.mem_cons_self n rest)]
        have hc0 : List.countP (fun x => decide (x = n)) rest = 0 := by
          rw [List.countP_eq_zero]
          intro a ha
          simp only [decide_eq_true_eq]
          exact fun h => hmem (h ▸ ha)
        have : (List.countP (fun x => decide (x = n)) (n :: rest)) = 1 := by
          rw [List.countP_cons, hc0]
          simp
        rw [this]
        norm_num
    · rw [if_neg hnk]
      have hmem_iff : k ∈ n :: rest ↔ k ∈ rest := by
        constructor
        · intro h
          rcases List.mem_cons.mp h with h | h
          · exact absurd h.symm hnk
          · exact h
        · exact fun h => List.mem_cons_of_mem n h
      have hcount : List.countP (fun x => decide (x = k)) (n :: rest) =
          List.countP (fun x => decide (x = k)) rest := by
        rw [List.countP_cons]
        simp [hnk]
      by_cases hmem : k ∈ rest
      · rw [if_pos hmem, if_pos (hmem_iff.mpr hmem), hcount]
      · rw [if_neg hmem, if_neg (fun h => hmem (hmem_iff.mp h))]

/-- Generic characterization of a left fold of dictionary-updating steps:
if each step changes the entry at `k` by `contrib` exactly when `touch`
holds (and `contrib` vanishes otherwise), the whole fold adds the sum of
the contributions, creating the entry iff some element touches `k`. -/
theorem lookupTotal_foldl_of_step {α : Type} (step : TotalsMap → α → TotalsMap)
    (touch : α → String → Prop) [inst : ∀ x k, Decidable (touch x k)]
    (contrib : α → String → ℚ)
    (hzero : ∀ x k, ¬ touch x k → contrib x k = 0)
    (hstep : ∀ m x k, lookupTotal (step m x) k =
      if touch x k then some ((lookupTotal m k).getD 0 + contrib x k)
      else lookupTotal m k) :
    ∀ (l : List α) (m : TotalsMap) (k : String),
      lookupTotal (l.foldl step m) k =
        if ∃ x ∈ l, touch x k then
          some ((lookupTotal m k).getD 0 + (l.map (fun x => contrib x k)).sum)
        else lookupTotal m k := by
  intro l
  induction l with
  | nil => intro m k; simp
  | cons x rest ih =>
    intro m k
    simp only [List.foldl_cons]
    rw [ih, hstep]
    have hsum_rest_zero : (¬ ∃ y ∈ rest, touch y k) →
        (rest.map (fun y => contrib y k)).sum = 0 := by
      intro hno
      apply List.sum_eq_zero
      intro q hq
      rcases List.mem_map.mp hq with ⟨y, hy, rfl⟩
      exact hzero y k (fun ht => hno ⟨y, hy, ht⟩)
    by_cases hx : touch x k
    · by_cases hrest : ∃ y ∈ rest, touch y k
      · rw [if_pos hrest, if_pos hx, if_pos ⟨x, List.mem_cons_self x rest, hx⟩]
        simp only [Option.getD_some, List.map_cons, List.sum_cons]
        congr 1
        ring
      · rw [if_neg hrest, if_pos hx, if_pos ⟨x, List.mem_cons_self x rest, hx⟩]
        simp only [List.map_cons, List.sum_cons]
        rw [hsum_rest_zero hrest]
        congr 1
        ring
    · by_cases hrest : ∃ y ∈ rest, touch y k
      · rw [if_pos hrest, if_neg hx]
        have hmem : ∃ y ∈ x :: rest, touch y k := by
          rcases hrest with ⟨y, hy, ht⟩
          exact ⟨y, List.mem_cons_of_mem x hy, ht⟩
        rw [if_pos hmem]
        simp only [List.map_cons, List.sum_cons]
        rw [hzero x k hx]
        congr 1
        ring
      · rw [if_neg hrest, if_neg hx]
        have hmem : ¬ ∃ y ∈ x :: rest, touch y k := by
          rintro ⟨y, hy, ht⟩
          rcases List.mem_cons.mp hy with rfl | hy2
          · exact hx ht
          · exact hrest ⟨y, hy2, ht⟩
        rw [if_neg hmem]

/-- Folding `addTo` over the names of a list of topics is folding over the
underlying name list. -/
theorem foldl_addTo_name (share : ℚ) :
    ∀ (tps : List Topic) (m : TotalsMap),
      tps.foldl (fun acc tp => addTo acc tp.name share) m =
        (tps.map Topic.name).foldl (fun acc n => addTo acc n share) m := by
  intro tps
  induction tps with
  | nil => intro m; rfl
  | cons tp rest ih => intro m; simp only [List.map_cons, List.foldl_cons, ih]

theorem contribTopic_eq_zero (s : PracticeSession) (k : String)
    (h : ¬ touchesTopic s k) : contribTopic s k = 0 := by
  have hc : s.topics.countP (fun tp => decide (tp.name = k)) = 0 := by
    rw [List.countP_eq_zero]
    intro tp htp
    simp only [decide_eq_true_eq]
    exact fun hname => h ⟨tp, htp, hname⟩
  simp [contribTopic, hc]

theorem contribTag_eq_zero (s : PracticeSession) (k : String)
    (h : ¬ touchesTag s k) : contribTag s k = 0 := by
  have hmap : (s.topics.map
      (fun tp => ((tp.tags.countP (fun t => decide (t = k)) : Nat) : ℚ))).sum = 0 := by
    apply List.sum_eq_zero
    intro q hq
    rcases List.mem_map.mp hq with ⟨tp, htp, rfl⟩
    have hc : tp.tags.countP (fun t => decide (t = k)) = 0 := by
      rw [List.countP_eq_zero]
      intro t ht
      simp only [decide_eq_true_eq]
      exact fun rfl2 => h ⟨tp, htp, rfl2 ▸ ht⟩
    simp [hc]
  simp [contribTag, hmap]

theorem lookupTotal_topicSessionStep (m : TotalsMap) (s : PracticeSession) (k : String) :
    lookupTotal (topicSessionStep m s) k =
      if touchesTopic s k then some ((lookupTotal m k).getD 0 + contribTopic s k)
      else lookupTotal m k := by
  by_cases hlen : s.topics.length = 0
  · have hnil : s.topics = [] := List.length_eq_zero.mp hlen
    have hnotouch : ¬ touchesTopic s k := by
      rintro ⟨tp, htp, -⟩
      rw [hnil] at htp
      exact absurd htp (List.not_mem_nil tp)
    simp [topicSessionStep, hlen, hnotouch]
  · simp only [topicSessionStep, if_neg hlen]
    rw [foldl_addTo_name, lookupTotal_foldAdd]
    have hmem_iff : (k ∈ s.topics.map Topic.name) ↔ touchesTopic s k := by
      simp [List.mem_map, touchesTopic]
    have hcount : (s.topics.map Topic.name).countP (fun n => decide (n = k)) =
        s.topics.countP (fun tp => decide (tp.name = k)) := by
      rw [List.countP_map]
      rfl
    by_cases ht : touchesTopic s k
    · rw [if_pos (hmem_iff.mpr ht), if_pos ht, hcount]
      rfl
    · rw [if_neg (fun h => ht (hmem_iff.mp h)), if_neg ht]

theorem lookupTotal_tagTopicStep (share : ℚ) (m : TotalsMap) (tp : Topic) (k : String) :
    lookupTotal
      (if tp.tags = [] then m
       else tp.tags.foldl (fun acc2 tagName => addTo acc2 tagName share) m) k =
      if k ∈ tp.tags then
        some ((lookupTotal m k).getD 0 +
          (tp.tags.countP (fun t => decide (t = k)) : ℚ) * share)
      else lookupTotal m k := by
  by_cases htags : tp.tags = []
  · have : ¬ k ∈ tp.tags := by rw [htags]; exact List.not_mem_nil k
    rw [if_pos htags, if_neg this]
  · rw [if_neg htags, lookupTotal_foldAdd]

theorem lookupTotal_tagSessionStep (m : TotalsMap) (s : PracticeSession) (k : String) :
    lookupTotal (tagSessionStep m s) k =
      if touchesTag s k then some ((lookupTotal m k).getD 0 + contribTag s k)
      else lookupTotal m k := by
  by_cases hlen : s.topics.length = 0
  · have hnil : s.topics = [] := List.length_eq_zero.mp hlen
    have hnotouch : ¬ touchesTag s k := by
      rintro ⟨tp, htp, -⟩
      rw [hnil] at htp
      exact absurd htp (List.not_mem_nil tp)
    simp [tagSessionStep, hlen, hnotouch]
  · simp only [tagSessionStep, if_neg hlen]
    rw [lookupTotal_foldl_of_step
      (fun acc tp =>
        if tp.tags = [] then acc
        else tp.tags.foldl
          (fun acc2 tagName =>
            addTo acc2 tagName ((s.duration_min : ℚ) / (s.topics.length : ℚ)))
          acc)
      (fun tp k2 => k2 ∈ tp.tags)
      (fun tp k2 => (tp.tags.countP (fun t => decide (t = k2)) : ℚ) *
        ((s.duration_min : ℚ) / (s.topics.length : ℚ)))
      (fun tp k2 hn => by
        have hc : tp.tags.countP (fun t => decide (t = k2)) = 0 := by
          rw [List.countP_eq_zero]
          intro t ht
          simp only [decide_eq_true_eq]
          exact fun h => hn (h ▸ ht)
        simp [hc])
      (fun m2 tp k2 => lookupTotal_tagTopicStep _ m2 tp k2)]
    have hsum : (s.topics.map (fun tp =>
        (tp.tags.countP (fun t => decide (t = k)) : ℚ) *
          ((s.duration_min : ℚ) / (s.topics.length : ℚ)))).sum = contribTag s k := by
      rw [contribTag, ← List.sum_map_mul_right]
    rw [hsum]
    rfl

/-- Entry-wise characterization of the topic aggregator: key `k` is present
iff some session has a topic named `k`, and its value is the sum of the
per-session contributions. -/
theorem lookupTotal_aggregate_topic (l : List PracticeSession) (k : String) :
    lookupTotal (aggregate_time_by_topic l) k =
      if ∃ s ∈ l, touchesTopic s k then
        some ((l.map (fun s => contribTopic s k)).sum)
      else none := by
  rw [aggregate_time_by_topic,
    lookupTotal_foldl_of_step topicSessionStep touchesTopic contribTopic
      contribTopic_eq_zero lookupTotal_topicSessionStep]
  simp [lookupTotal]

/-- Entry-wise characterization of the tag aggregator. -/
theorem lookupTotal_aggregate_tag (l : List PracticeSession) (k : String) :
    lookupTotal (aggregate_time_by_tag l) k =
      if ∃ s ∈ l, touchesTag s k then
        some ((l.map (fun s => contribTag s k)).sum)
      else none := by
  rw [aggregate_time_by_tag,
    lookupTotal_foldl_of_step tagSessionStep touchesTag contribTag
      contribTag_eq_zero lookupTotal_tagSessionStep]
  simp [lookupTotal]

theorem sumValues_topicSessionStep (m : TotalsMap) (s : PracticeSession) :
    sumValues (topicSessionStep m s) =
      sumValues m + (if s.topics.length = 0 then 0 else (s.duration_min : ℚ)) := by
  by_cases hlen : s.topics.length = 0
  · simp [topicSessionStep, hlen]
  · simp only [topicSessionStep, if_neg hlen]
    rw [sumValues_foldAddBy Topic.name _ s.topics m]
    have hne : (s.topics.length : ℚ) ≠ 0 := Nat.cast_ne_zero.mpr hlen
    rw [mul_comm, div_mul_cancel₀ _ hne]

theorem sumValues_foldl_topicStep :
    ∀ (l : List PracticeSession) (m : TotalsMap),
      sumValues (l.foldl topicSessionStep m) =
        sumValues m + ((l.filter (fun s => decide (s.topics.length ≠ 0))).map
          (fun s => (s.duration_min : ℚ))).sum := by
  intro l
  induction l with
  | nil => intro m; simp
  | cons s rest ih =>
    intro m
    simp only [List.foldl_cons]
    rw [ih, sumValues_topicSessionStep]
    by_cases hlen : s.topics.length = 0
    · rw [if_pos hlen]
      have hdec : (decide (s.topics.length ≠ 0)) = false := by simp [hlen]
      simp only [List.filter_cons, hdec, Bool.false_eq_true, if_false]
      ring
    · rw [if_neg hlen]
      have hdec : (decide (s.topics.length ≠ 0)) = true := by simp [hlen]
      simp only [List.filter_cons, hdec, if_true, List.map_cons, List.sum_cons]
      ring

/-- Claim C2: the values of the topic aggregate sum to the total
`duration_min` of exactly the sessions that have at least one topic;
sessions with zero topics are excluded and each remaining session's
duration is recovered because its `topicCount` equal shares of
`duration_min / topicCount` add back up to `duration_min`. -/
theorem topic_aggregation_conserves_total (sessions : List PracticeSession) :
    sumValues (aggregate_time_by_topic sessions) =
      ((sessions.filter (fun s => decide (s.topics.length ≠ 0))).map
        (fun s => (s.duration_min : ℚ))).sum := by
  rw [aggregate_time_by_topic, sumValues_foldl_topicStep]
  simp [sumValues]

/-- Claim C3: for a single session of duration 60 with one topic tagged
exactly with tags `a` and `b`, the tag aggregator yields the mapping
`a ↦ 60, b ↦ 60`: the full per-topic share goes to every tag, with no
further splitting across tags. -/
theorem tag_aggregation_not_split_across_tags :
    aggregate_time_by_tag [⟨60, [⟨"t", ["a", "b"]⟩]⟩] = [("a", 60), ("b", 60)] := by
  simp [aggregate_time_by_tag, tagSessionStep, addTo]

/-- Claim C6: a session with zero attached topics contributes nothing to
either aggregate: both aggregators return the same dictionary with the
session removed from any position, and (the embedding being total) neither
signals failure; the `topic_count == 0` guard makes the division
unreachable for such a session. -/
theorem zero_topic_session_contributes_nothing (l1 l2 : List PracticeSession)
    (s : PracticeSession) (h : s.topics = []) :
    aggregate_time_by_topic (l1 ++ s :: l2) = aggregate_time_by_topic (l1 ++ l2) ∧
    aggregate_time_by_tag (l1 ++ s :: l2) = aggregate_time_by_tag (l1 ++ l2) := by
  have hlen : s.topics.length = 0 := by rw [h]; rfl
  have hts : ∀ m, topicSessionStep m s = m := fun m => by
    simp [topicSessionStep, hlen]
  have hgs : ∀ m, tagSessionStep m s = m := fun m => by
    simp [tagSessionStep, hlen]
  constructor
  · simp [aggregate_time_by_topic, List.foldl_append, hts]
  · simp [aggregate_time_by_tag, List.foldl_append, hgs]

theorem zero_topic_session_contributes_nothing_witness :
    aggregate_time_by_topic ([⟨3, [⟨"x", ["a"]⟩]⟩] ++ (⟨5, []⟩ : PracticeSession) :: []) =
      aggregate_time_by_topic ([⟨3, [⟨"x", ["a"]⟩]⟩] ++ []) ∧
    aggregate_time_by_tag ([⟨3, [⟨"x", ["a"]⟩]⟩] ++ (⟨5, []⟩ : PracticeSession) :: []) =
      aggregate_time_by_tag ([⟨3, [⟨"x", ["a"]⟩]⟩] ++ []) :=
  zero_topic_session_contributes_nothing [⟨3, [⟨"x", ["a"]⟩]⟩] [] ⟨5, []⟩ rfl

/-- Claim C8: the aggregates are invariant under permutation of the session
list: the permuted list yields the same mapping (the dictionaries agree on
every key, which is Python dict equality). -/
theorem aggregate_perm_invariant (l1 l2 : List PracticeSession) (h : l1.Perm l2) :
    (∀ k, lookupTotal (aggregate_time_by_topic l1) k =
      lookupTotal (aggregate_time_by_topic l2) k) ∧
    (∀ k, lookupTotal (aggregate_time_by_tag l1) k =
      lookupTotal (aggregate_time_by_tag l2) k) := by
  constructor
  · intro k
    rw [lookupTotal_aggregate_topic, lookupTotal_aggregate_topic]
    apply if_congr
    · exact ⟨fun ⟨s, hs, ht⟩ => ⟨s, h.mem_iff.mp hs, ht⟩,
        fun ⟨s, hs, ht⟩ => ⟨s, h.mem_iff.mpr hs, ht⟩⟩
    · rw [(h.map (fun s => contribTopic s k)).sum_eq]
    · rfl
  · intro k
    rw [lookupTotal_aggregate_tag, lookupTotal_aggregate_tag]
    apply if_congr
    · exact ⟨fun ⟨s, hs, ht⟩ => ⟨s, h.mem_iff.mp hs, ht⟩,
        fun ⟨s, hs, ht⟩ => ⟨s, h.mem_iff.mpr hs, ht⟩⟩
    · rw [(h.map (fun s => contribTag s k)).sum_eq]
    · rfl

theorem aggregate_perm_invariant_witness :
    lookupTotal (aggregate_time_by_topic [sampleA, sampleB]) "x" =
      lookupTotal (aggregate_time_by_topic [sampleB, sampleA]) "x" ∧
    lookupTotal (aggregate_time_by_tag [sampleA, sampleB]) "a" =
      lookupTotal (aggregate_time_by_tag [sampleB, sampleA]) "a" :=
  ⟨(aggregate_perm_invariant [sampleA, sampleB] [sampleB, sampleA]
      (List.Perm.swap sampleB sampleA [])).1 "x",
   (aggregate_perm_invariant [sampleA, sampleB] [sampleB, sampleA]
      (List.Perm.swap sampleB sampleA [])).2 "a"⟩

/-! ### Sorting lemmas for the database ordering -/

theorem insertDescBy_perm {α : Type} (key : α → Int) (x : α) :
    ∀ l : List α, (insertDescBy key x l).Perm (x :: l) := by
  intro l
  induction l with
  | nil => exact List.Perm.refl _
  | cons y rest ih =>
    simp only [insertDescBy]
    by_cases h : key y ≤ key x
    · rw [if_pos h]
    · rw [if_neg h]
      exact (List.Perm.cons y ih).trans (List.Perm.swap x y rest)

theorem sortDescBy_perm {α : Type} (key : α → Int) :
    ∀ l : List α, (sortDescBy key l).Perm l := by
  intro l
  induction l with
  | nil => exact List.Perm.refl _
  | cons x rest ih =>
    have hx : sortDescBy key (x :: rest) = insertDescBy key x (sortDescBy key rest) := rfl
    rw [hx]
    exact (insertDescBy_perm key x _).trans (List.Perm.cons x ih)

theorem insertDescBy_pairwise {α : Type} (key : α → Int) (x : α) :
    ∀ l : List α, l.Pairwise (fun a b => key b ≤ key a) →
      (insertDescBy key x l).Pairwise (fun a b => key b ≤ key a) := by
  intro l
  induction l with
  | nil =>
    intro _
    exact List.pairwise_singleton _ x
  | cons y rest ih =>
    intro h
    rcases List.pairwise_cons.mp h with ⟨hy, hrest⟩
    simp only [insertDescBy]
    by_cases hxy : key y ≤ key x
    · rw [if_pos hxy]
      apply List.pairwise_cons.mpr
      refine ⟨?_, h⟩
      intro b hb
      rcases List.mem_cons.mp hb with rfl | hb2
      · exact hxy
      · exact le_trans (hy b hb2) hxy
    · rw [if_neg hxy]
      apply List.pairwise_cons.mpr
      refine ⟨?_, ih hrest⟩
      intro b hb
      have hb2 : b ∈ x :: rest := (insertDescBy_perm key x rest).mem_iff.mp hb
      rcases List.mem_cons.mp hb2 with rfl | hb3
      · exact le_of_not_le hxy
      · exact hy b hb3

theorem sortDescBy_pairwise {α : Type} (key : α → Int) :
    ∀ l : List α, (sortDescBy key l).Pairwise (fun a b => key b ≤ key a) := by
  intro l
  induction l with
  | nil => exact List.Pairwise.nil
  | cons x rest ih => exact insertDescBy_pairwise key x _ ih

/-- The head of the descending sort is a maximal element of the input. -/
theorem sortDescBy_head_max {α : Type} (key : α → Int) (l : List α) (h : α)
    (t : List α) (hs : sortDescBy key l = h :: t) :
    h ∈ l ∧ ∀ x ∈ l, key x ≤ key h := by
  have hperm := sortDescBy_perm key l
  rw [hs] at hperm
  refine ⟨hperm.mem_iff.mp (List.mem_cons_self h t), ?_⟩
  intro x hx
  have hx2 : x ∈ h :: t := hperm.mem_iff.mpr hx
  rcases List.mem_cons.mp hx2 with rfl | hx3
  · exact le_refl _
  · have hp := sortDescBy_pairwise key l
    rw [hs] at hp
    exact (List.pairwise_cons.mp hp).1 x hx3

theorem insertDescBy_of_le {α : Type} (key : α → Int) (x : α) :
    ∀ l : List α, (∀ y ∈ l, key y ≤ key x) → insertDescBy key x l = x :: l := by
  intro l h
  cases l with
  | nil => rfl
  | cons y t =>
    simp only [insertDescBy]
    rw [if_pos (h y (List.mem_cons_self y t))]

/-- Sorting a list that is already descending leaves it unchanged. -/
theorem sortDescBy_of_pairwise {α : Type} (key : α → Int) :
    ∀ l : List α, l.Pairwise (fun a b => key b ≤ key a) → sortDescBy key l = l := by
  intro l
  induction l with
  | nil => intro _; rfl
  | cons x rest ih =>
    intro h
    rcases List.pairwise_cons.mp h with ⟨hx, hrest⟩
    have hc : sortDescBy key (x :: rest) = insertDescBy key x (sortDescBy key rest) := rfl
    rw [hc, ih hrest, insertDescBy_of_le key x rest hx]

/-! ### Streak lemmas -/

/-- Invariant of the streak loop: once counting has started with
`streak_start = previous_day` and `streak = streak_end - streak_start + 1`,
the loop returns some final start `s2 ≤ streak_end`, the unchanged
`streak_end`, and a count equal to the number of calendar days from `s2`
to `streak_end` inclusive. -/
theorem streakLoop_spec :
    ∀ (rest : List Int) (streak : Nat) (s e : Int),
      s ≤ e → (streak : Int) = e - s + 1 →
      ∃ (st : Nat) (s2 : Int),
        streakLoop s streak s e rest = (st, some s2, some e) ∧
        s2 ≤ e ∧ (st : Int) = e - s2 + 1 := by
  intro rest
  induction rest with
  | nil =>
    intro streak s e hse hst
    exact ⟨streak, s, rfl, hse, hst⟩
  | cons day t ih =>
    intro streak s e hse hst
    simp only [streakLoop]
    by_cases h0 : s - day = 0
    · rw [if_pos h0]
      exact ih streak s e hse hst
    · rw [if_neg h0]
      by_cases h1 : s - day = 1
      · rw [if_pos h1]
        exact ih (streak + 1) day e (by omega) (by push_cast; omega)
      · rw [if_neg h1]
        exact ⟨streak, s, rfl, hse, hst⟩

/-- The two possible shapes of a `streak_info` result: either the empty or
immediately-broken case `(0, none, none)`, or a counted streak whose end is
the most recent date of the input and whose length is the day span. -/
theorem streak_info_cases (today : Int) (dates : List Int) :
    streak_info today dates = (0, none, none) ∨
    ∃ (st : Nat) (s e : Int),
      streak_info today dates = (st, some s, some e) ∧
      s ≤ e ∧ (st : Int) = e - s + 1 ∧ e ∈ dates ∧ ∀ x ∈ dates, x ≤ e := by
  rw [streak_info]
  cases hs : sortDescBy id dates with
  | nil => left; rfl
  | cons h t =>
    rcases sortDescBy_head_max id dates h t hs with ⟨hmem, hmax⟩
    by_cases hgap : 1 < today - h
    · left
      simp [computeStreak, hgap]
    · right
      rcases streakLoop_spec t 1 h h (le_refl h) (by push_cast; ring) with
        ⟨st, s2, heq, hs2, hst⟩
      refine ⟨st, s2, h, ?_, hs2, hst, hmem, hmax⟩
      simp [computeStreak, hgap, heq]

/-- Claim C1 fails as stated: a single session dated 2 days before today
(date 8, today 10) yields streak `(0, none, none)`, not `(1, 8, 8)`; the
streak does not begin accumulating from a most recent practiced day that
lies 2 or more days in the past. -/
theorem streak_single_far_past_cex :
    streak_info 10 [8] = (0, none, none) ∧
    streak_info 10 [8] ≠ (1, some 8, some 8) := by
  decide

/-- Claim C1 (amended): for a single session with practice date `d`, the
result is `(1, d, d)` when `d` is today or yesterday (`today - d ≤ 1`,
including future dates), and `(0, null, null)` when `d` lies 2 or more
days before today. -/
theorem streak_single_session_amended (today d : Int) :
    (today - d ≤ 1 → streak_info today [d] = (1, some d, some d)) ∧
    (2 ≤ today - d → streak_info today [d] = (0, none, none)) := by
  have hsort : sortDescBy id [d] = [d] := rfl
  constructor
  · intro h
    rw [streak_info, hsort]
    simp only [computeStreak]
    rw [if_neg (by omega : ¬ (1 < today - d))]
    rfl
  · intro h
    rw [streak_info, hsort]
    simp only [computeStreak]
    rw [if_pos (by omega : 1 < today - d)]

theorem streak_single_session_amended_witness :
    streak_info 5 [5] = (1, some 5, some 5) ∧
    streak_info 5 [3] = (0, none, none) :=
  ⟨(streak_single_session_amended 5 5).1 (by decide),
   (streak_single_session_amended 5 3).2 (by decide)⟩

theorem streak_gap_concrete (today : Int) :
    streak_info today [today, today - 1, today - 3] =
      (2, some (today - 1), some today) := by
  have hsort : sortDescBy id [today, today - 1, today - 3] =
      [today, today - 1, today - 3] := by
    apply sortDescBy_of_pairwise
    simp only [List.pairwise_cons, List.mem_cons, List.mem_singleton, id_eq,
      List.not_mem_nil, List.Pairwise.nil]
    refine ⟨?_, ?_, ?_⟩
    · rintro b (rfl | rfl | h) <;> first | omega | exact absurd h (by simp)
    · rintro b (rfl | h) <;> first | omega | exact absurd h (by simp)
    · exact ⟨fun b h => absurd h (by simp), trivial⟩
  rw [streak_info, hsort]
  simp only [computeStreak, streakLoop]
  split_ifs <;> first | rfl | omega

theorem streak_duplicate_concrete (today : Int) :
    streak_info today [today, today, today - 1] =
      (2, some (today - 1), some today) := by
  have hsort : sortDescBy id [today, today, today - 1] =
      [today, today, today - 1] := by
    apply sortDescBy_of_pairwise
    simp only [List.pairwise_cons, List.mem_cons, List.mem_singleton, id_eq,
      List.not_mem_nil, List.Pairwise.nil]
    refine ⟨?_, ?_, ?_⟩
    · rintro b (rfl | rfl | h) <;> first | omega | exact absurd h (by simp)
    · rintro b (rfl | h) <;> first | omega | exact absurd h (by simp)
    · exact ⟨fun b h => absurd h (by simp), trivial⟩
  rw [streak_info, hsort]
  simp only [computeStreak, streakLoop]
  split_ifs <;> first | rfl | omega

/-- Claim C4: once counting has started, a gap of exactly one calendar day
extends the streak by one day (moving the start date back a day), and any
larger gap stops the count with the totals accumulated so far; concretely,
sessions dated today, today-1 and today-3 give a streak of length 2
running from today-1 to today. -/
theorem streak_gap_breaks :
    (∀ (prev : Int) (streak : Nat) (s e : Int) (rest : List Int),
      streakLoop prev streak s e ((prev - 1) :: rest) =
        streakLoop (prev - 1) (streak + 1) (prev - 1) e rest) ∧
    (∀ (prev : Int) (streak : Nat) (s e g : Int) (rest : List Int),
      1 < g → streakLoop prev streak s e ((prev - g) :: rest) =
        (streak, some s, some e)) ∧
    (∀ today : Int, streak_info today [today, today - 1, today - 3] =
      (2, some (today - 1), some today)) := by
  refine ⟨?_, ?_, ?_⟩
  · intro prev streak s e rest
    simp only [streakLoop]
    rw [if_neg (by omega : ¬ (prev - (prev - 1) = 0)),
      if_pos (by omega : prev - (prev - 1) = 1)]
  · intro prev streak s e g rest hg
    simp only [streakLoop]
    rw [if_neg (by omega : ¬ (prev - (prev - g) = 0)),
      if_neg (by omega : ¬ (prev - (prev - g) = 1))]
  · exact streak_gap_concrete

theorem streak_gap_breaks_witness :
    streakLoop 5 1 5 5 ((5 - 2) :: []) = (1, some 5, some 5) :=
  streak_gap_breaks.2.1 5 1 5 5 2 [] (by decide)

/-- Claim C5: multiple sessions on the same calendar day are counted once:
a duplicate of the previous day is skipped without changing the streak
count or its endpoints; concretely, sessions dated today, today and
today-1 give a streak of length 2 from today-1 to today. -/
theorem streak_duplicate_days_collapse :
    (∀ (prev : Int) (streak : Nat) (s e : Int) (rest : List Int),
      streakLoop prev streak s e (prev :: rest) =
        streakLoop prev streak s e rest) ∧
    (∀ today : Int, streak_info today [today, today, today - 1] =
      (2, some (today - 1), some today)) := by
  refine ⟨?_, ?_⟩
  · intro prev streak s e rest
    simp only [streakLoop]
    rw [if_pos (by omega : prev - prev = 0)]
  · exact streak_duplicate_concrete

/-- Claim C9: for a non-empty session list whose most recent practice date
is two or more calendar days before today, the streak is
`(0, none, none)`, exactly the result for an empty list. -/
theorem streak_stale_sessions_zero (today : Int) (dates : List Int)
    (hne : dates ≠ []) (hold : ∀ d ∈ dates, d ≤ today - 2) :
    streak_info today dates = (0, none, none) ∧
    streak_info today [] = (0, none, none) := by
  refine ⟨?_, rfl⟩
  rw [streak_info]
  cases hs : sortDescBy id dates with
  | nil =>
    exfalso
    have hperm := sortDescBy_perm id dates
    rw [hs] at hperm
    exact hne hperm.symm.eq_nil
  | cons h t =>
    rcases sortDescBy_head_max id dates h t hs with ⟨hmem, -⟩
    have hgap : 1 < today - h := by
      have := hold h hmem
      omega
    simp [computeStreak, hgap]

theorem streak_stale_sessions_zero_witness :
    streak_info 10 [8, 5] = (0, none, none) ∧
    streak_info 10 [] = (0, none, none) :=
  streak_stale_sessions_zero 10 [8, 5] (by decide) (by decide)

/-- Claim C10: the streak result is internally consistent: a zero streak
has both dates null; a positive streak has both dates set, ends at the
most recent practice date of the input, starts no later than it ends, and
its length is the inclusive day span from start date to end date. -/
theorem streak_info_consistent (today : Int) (dates : List Int) :
    ((streak_info today dates).1 = 0 →
      (streak_info today dates).2.1 = none ∧
      (streak_info today dates).2.2 = none) ∧
    (0 < (streak_info today dates).1 →
      ∃ s e, (streak_info today dates).2.1 = some s ∧
        (streak_info today dates).2.2 = some e ∧
        e ∈ dates ∧ (∀ x ∈ dates, x ≤ e) ∧ s ≤ e ∧
        ((streak_info today dates).1 : Int) = e - s + 1) := by
  rcases streak_info_cases today dates with h | ⟨st, s, e, heq, hse, hst, hmem, hmax⟩
  · rw [h]
    exact ⟨fun _ => ⟨rfl, rfl⟩, fun h0 => absurd h0 (lt_irrefl 0)⟩
  · rw [heq]
    constructor
    · intro h0
      exfalso
      simp only at h0
      omega
    · intro _
      exact ⟨s, e, rfl, rfl, hmem, hmax, hse, hst⟩

theorem streak_info_consistent_witness :
    (streak_info 10 [8]).2.1 = none ∧ (streak_info 10 [8]).2.2 = none :=
  (streak_info_consistent 10 [8]).1 (by decide)

/-- Claim C7: the windowed selection returns exactly the input sessions
whose start timestamp is at least `now` minus the window, ordered
descending by start time (a permutation of the filtered input, pairwise
descending, with membership characterized); over a 7-day window a session
dated 8 days before now is excluded while a session dated 6 days and 23
hours before now is included. -/
theorem selectWindow_spec (now win : Int) (sessions : List TimedSession) :
    (selectWindow now win sessions).Perm
      (sessions.filter (fun s => decide (now - win * minutesPerDay ≤ s.started_at))) ∧
    (selectWindow now win sessions).Pairwise
      (fun a b => b.started_at ≤ a.started_at) ∧
    (∀ s, s ∈ selectWindow now win sessions ↔
      s ∈ sessions ∧ now - win * minutesPerDay ≤ s.started_at) ∧
    (⟨now - 8 * minutesPerDay⟩ : TimedSession) ∉
      selectWindow now 7
        [⟨now - 8 * minutesPerDay⟩, ⟨now - (6 * minutesPerDay + 23 * 60)⟩] ∧
    (⟨now - (6 * minutesPerDay + 23 * 60)⟩ : TimedSession) ∈
      selectWindow now 7
        [⟨now - 8 * minutesPerDay⟩, ⟨now - (6 * minutesPerDay + 23 * 60)⟩] := by
  have hmem : ∀ (w : Int) (l : List TimedSession) (s : TimedSession),
      s ∈ selectWindow now w l ↔
        s ∈ l ∧ now - w * minutesPerDay ≤ s.started_at := by
    intro w l s
    simp only [selectWindow]
    rw [List.Perm.mem_iff (sortDescBy_perm _ _)]
    simp [List.mem_filter]
  refine ⟨?_, ?_, hmem win sessions, ?_, ?_⟩
  · simp only [selectWindow]
    exact sortDescBy_perm _ _
  · simp only [selectWindow]
    exact sortDescBy_pairwise _ _
  · intro hm
    rcases (hmem 7 _ _).mp hm with ⟨-, hle⟩
    simp only [minutesPerDay] at hle
    omega
  · rw [hmem 7]
    refine ⟨by simp, ?_⟩
    simp only [minutesPerDay]
    omega

theorem selectWindow_spec_witness :
    (⟨0 - (6 * minutesPerDay + 23 * 60)⟩ : TimedSession) ∈
      selectWindow 0 7
        [⟨0 - 8 * minutesPerDay⟩, ⟨0 - (6 * minutesPerDay + 23 * 60)⟩] :=
  (selectWindow_spec 0 7 []).2.2.2.2

end PracticeLog
